import Mathlib

/-!
Verification development for the two JSON-repair scripts of this repository:
`clean_json.py` (line-based escaping of stray quotes in the `"f"` and `"b"`
fields) and `fix_hints.py` (recursive removal of backticks from `"hint"`
fields).  Lines and string contents are modelled as `List Char`.
-/

set_option autoImplicit false

/-! ### Embedding of `fix_line` (clean_json.py, lines 4-77)

The Python function matches a line against the regex
`^(\s*)"f": "(.*)"(,?)$` (and the same with `"b"`), then rewrites the
captured content by a character scan.  The regex semantics are embedded
directly: `\s*` is a maximal run of whitespace, the literal part
`"KEY": "` must follow, and the greedy `(.*)"(,?)$` makes the content
extend to the rightmost quote of the line (with `.` never matching a
newline, and `$` also matching just before one trailing newline). -/

/-- Whitespace class of Python's `\s` (ASCII range), used by the `(\s*)`
group of the patterns in `fix_line`. -/
def pyIsSpace (c : Char) : Bool :=
  c == ' ' || c == '\t' || c == '\n' || c == '\r' || c == '\x0b' || c == '\x0c'

/-- Anchored literal matching: `startsWith pat l` holds when `pat` is an
initial segment of `l`.  Models the literal `"KEY": "` part of the regex. -/
def startsWith : List Char → List Char → Bool
  | [], _ => true
  | _ :: _, [] => false
  | a :: pa, b :: rest => a == b && startsWith pa rest

/-- The literal characters `"KEY": "` that must follow the indentation. -/
def keyPattern (key : List Char) : List Char :=
  '"' :: key ++ ['"', ':', ' ', '"']

def fKey : List Char := ['f']

def bKey : List Char := ['b']

/-- Reverse of the regex tail, with the `$`-anchor rule applied: Python's
`$` also matches just before a newline that ends the string, so one
trailing newline is discarded.  Returns the remaining tail reversed. -/
def revStripNl (t : List Char) : List Char :=
  match t.reverse with
  | [] => []
  | a :: r => if a = '\n' then r else a :: r

/-- After a final comma, the reversed tail must continue with the closing
quote; the rest (reversed back) is the content. -/
def greedyCommaRev : List Char → Option (List Char × List Char)
  | [] => none
  | b :: r2 => if b = '"' then some (r2.reverse, [',']) else none

/-- Greedy match of `(.*)"(,?)$`, working on the reversed tail: the last
character must be the closing quote, possibly after one comma, and the
content (matched by `.`) may not contain a newline. -/
def greedyTailRev : List Char → Option (List Char × List Char)
  | [] => none
  | a :: r =>
    if '\n' ∈ a :: r then none
    else if a = '"' then some (r.reverse, [])
    else if a = ',' then greedyCommaRev r
    else none

/-- Greedy match of `(.*)"(,?)$` against the part of the line after the
literal `"KEY": "`: the rightmost quote closes the content, an optional
comma may follow.  Returns `(content, suffix-group)`. -/
def greedyTail (t : List Char) : Option (List Char × List Char) :=
  greedyTailRev (revStripNl t)

/-- `re.match(r'^(\s*)"KEY": "(.*)"(,?)$', line)`: the three captured
groups (indentation, content, optional comma) or `none`. -/
def matchKV (key line : List Char) : Option (List Char × List Char × List Char) :=
  if startsWith (keyPattern key) (line.dropWhile pyIsSpace) then
    match greedyTail ((line.dropWhile pyIsSpace).drop (keyPattern key).length) with
    | some (c, s) => some (line.takeWhile pyIsSpace, c, s)
    | none => none
  else none

/-- The character scan of `fix_line` (clean_json.py lines 35-48): walk the
content left to right; a quote whose previous character in the original
content is a backslash is kept, any other quote becomes backslash-quote,
and every other character is kept.  `prev` is the previous original
character (`none` at the start). -/
def escapeGo (prev : Option Char) : List Char → List Char
  | [] => []
  | c :: rest =>
    if c = '"' then
      if prev = some '\\' then c :: escapeGo (some c) rest
      else '\\' :: c :: escapeGo (some c) rest
    else c :: escapeGo (some c) rest

def escapeContent (content : List Char) : List Char :=
  escapeGo none content

/-- `fix_line` (clean_json.py lines 4-77): try the `"f"` pattern, then the
`"b"` pattern, rebuild the line with the escaped content on a match, and
return the line unchanged otherwise. -/
def fix_line (line : List Char) : List Char :=
  match matchKV fKey line with
  | some (w, c, s) => w ++ keyPattern fKey ++ escapeContent c ++ '"' :: s
  | none =>
    match matchKV bKey line with
    | some (w, c, s) => w ++ keyPattern bKey ++ escapeContent c ++ '"' :: s
    | none => line

/-- Combined matcher: which key pattern (if any) `fix_line` uses for a
line, together with the captured groups, in the order the code tries them. -/
def matchLine (line : List Char) : Option (List Char × List Char × List Char × List Char) :=
  match matchKV fKey line with
  | some (w, c, s) => some (fKey, w, c, s)
  | none =>
    match matchKV bKey line with
    | some (w, c, s) => some (bKey, w, c, s)
    | none => none

/-! ### Spec-side definitions for the escaping scan

`specEmit`/`escapeSpec` transcribe the spec's description of the scan
("every quote whose immediately preceding character in the content, if
any, is a backslash is emitted unchanged; every other quote is replaced
by a backslash followed by a quote; every non-quote character is emitted
unchanged"), pairing each character with its predecessor. -/

/-- What the spec says is emitted for one character, given the preceding
content character (if any). -/
def specEmit (prevc : Option Char) (c : Char) : List Char :=
  if c = '"' then
    if prevc = some '\\' then [c] else ['\\', c]
  else [c]

/-- The whole rewritten content as described by the spec: each character,
paired with its predecessor in the content, is emitted by `specEmit`. -/
def escapeSpec (content : List Char) : List Char :=
  ((none :: content.map some).zip content).flatMap fun pc => specEmit pc.1 pc.2

/-- Decidable form of "every quote of the list is immediately preceded by
a backslash", where `prev` is the character just before the list starts
(`none` at the very beginning of the content). -/
def allEscaped : Option Char → List Char → Bool
  | _, [] => true
  | prev, c :: rest => (c != '"' || prev == some '\\') && allEscaped (some c) rest

/-! ### Embedding of the parsed-JSON data model

`Json` models the values produced by Python's `json` module: `None`,
booleans, numbers, strings, lists and dicts (association lists with the
insertion order of the parsed text; `json.loads` gives each key at most
once per dict). -/

inductive Json where
  | null : Json
  | bool (b : Bool) : Json
  | num (n : Int) : Json
  | str (s : List Char) : Json
  | arr (xs : List Json) : Json
  | obj (kvs : List (List Char × Json)) : Json

/-! ### Embedding of `process_file` (clean_json.py, lines 79-112)

The file system and console are modelled as the list of observable events
the function produces, in order.  `json.loads` and `json.dump` are Python
standard-library functions, not part of this repository, so they are
taken as parameters: `loads` either yields a parsed value or the first
parse error with its message, line and column (as carried by
`json.JSONDecodeError`), and `dumps` renders a value the way
`json.dump(..., indent=4, ensure_ascii=False)` writes it.  Reading the
input file yields `some` lines (each line still carrying whatever the
line splitting left; `fix_line` is applied after `rstrip('\n')`) or
`none` when the file does not exist (`FileNotFoundError`). -/

inductive Event where
  | printed (msg : String) : Event
  | printedError (msg : String) : Event
  | printedErrorAt (lineno colno : Nat) : Event
  | wroteFile (name : String) (contents : List Char) : Event

inductive ParseOutcome where
  | ok (v : Json) : ParseOutcome
  | error (msg : String) (lineno colno : Nat) : ParseOutcome

/-- Python's `line.rstrip('\n')`: remove every trailing newline. -/
def rstripNl (l : List Char) : List Char :=
  (l.reverse.dropWhile (fun c => c = '\n')).reverse

/-- `process_file`: read the lines, repair each one, join with newlines,
try a full parse; on success write the re-serialised document, on a parse
failure report the error position and persist the repaired text to the
side file `debug_intermediate.json`; a missing input file is reported and
execution ends normally. -/
def process_file (readLines : Option (List (List Char)))
    (loads : List Char → ParseOutcome) (dumps : Json → List Char) : List Event :=
  Event.printed ("Reading raw_questions.json...") ::
    match readLines with
    | none => [Event.printed ("File raw_questions.json not found.")]
    | some lines =>
        match loads (List.intercalate ['\n'] (lines.map fun l => fix_line (rstripNl l))) with
        | ParseOutcome.ok v =>
            [Event.printed ("Success! The fixed content is valid JSON."),
             Event.wroteFile ("clean_questions.json") (dumps v),
             Event.printed ("Saved clean JSON to clean_questions.json")]
        | ParseOutcome.error msg lineno colno =>
            [Event.printed ("Cleaning pass finished, but result is still invalid."),
             Event.printedError msg,
             Event.printedErrorAt lineno colno,
             Event.wroteFile ("debug_intermediate.json")
               (List.intercalate ['\n'] (lines.map fun l => fix_line (rstripNl l)))]

/-! ### Embedding of `clean_hints` (fix_hints.py, lines 4-22)

The Python function mutates the structure in place; here it is the
function from the old value to the new one.  Its two branches are kept
separate: `cleanListItems` is the `isinstance(data, list)` branch, which
walks the items and, only for items that are dicts, replaces a string
`"hint"` value and then calls `clean_hints` on every value of that dict;
`cleanObjEntries` is the `isinstance(data, dict)` branch.  A call of
`clean_hints` on a string (or any other scalar) matches neither
`isinstance` test and does nothing, so in `cleanInListObj` the recursion
into a value already known to be a string is inlined as the identity. -/

def hintKey : List Char := ['h', 'i', 'n', 't']

/-- The backtick character that `clean_hints` strips (written via its
code point to keep the source free of stray backticks). -/
def backtick : Char := Char.ofNat 96

/-- Python's `s.replace("`", "")`: remove every backtick. -/
def removeTicks (s : List Char) : List Char :=
  s.filter fun c => c ≠ backtick

mutual

def clean_hints : Json → Json
  | Json.arr xs => Json.arr (cleanListItems xs)
  | Json.obj kvs => Json.obj (cleanObjEntries kvs)
  | j => j

def cleanListItems : List Json → List Json
  | [] => []
  | Json.obj kvs :: rest => Json.obj (cleanInListObj kvs) :: cleanListItems rest
  | j :: rest => j :: cleanListItems rest

def cleanInListObj : List (List Char × Json) → List (List Char × Json)
  | [] => []
  | (k, Json.str s) :: rest =>
      (k, Json.str (if k = hintKey then removeTicks s else s)) :: cleanInListObj rest
  | (k, v) :: rest => (k, clean_hints v) :: cleanInListObj rest

def cleanObjEntries : List (List Char × Json) → List (List Char × Json)
  | [] => []
  | (k, Json.str s) :: rest =>
      (k, Json.str (if k = hintKey then removeTicks s else s)) :: cleanObjEntries rest
  | (k, v) :: rest => (k, clean_hints v) :: cleanObjEntries rest

end

/-! ### Spec-side definitions for the recursive cleaner

`cleanHintsFull` transcribes the claim's description of the traversal
("visits every nested mapping and every element of every sequence,
recursing into values of any type"): it recurses into all sequence
elements, not only into the ones that are mappings.  `maskHints` replaces
every string `"hint"` value by the empty string; two values have equal
masks exactly when they agree everywhere outside string `"hint"` values.
`noSeqInSeq` says that no sequence element is itself a sequence. -/

mutual

def cleanHintsFull : Json → Json
  | Json.arr xs => Json.arr (fullList xs)
  | Json.obj kvs => Json.obj (fullObj kvs)
  | j => j

def fullList : List Json → List Json
  | [] => []
  | x :: rest => cleanHintsFull x :: fullList rest

def fullObj : List (List Char × Json) → List (List Char × Json)
  | [] => []
  | (k, Json.str s) :: rest =>
      (k, Json.str (if k = hintKey then removeTicks s else s)) :: fullObj rest
  | (k, v) :: rest => (k, cleanHintsFull v) :: fullObj rest

end

mutual

def maskHints : Json → Json
  | Json.arr xs => Json.arr (maskList xs)
  | Json.obj kvs => Json.obj (maskObj kvs)
  | j => j

def maskList : List Json → List Json
  | [] => []
  | x :: rest => maskHints x :: maskList rest

def maskObj : List (List Char × Json) → List (List Char × Json)
  | [] => []
  | (k, Json.str s) :: rest =>
      (k, if k = hintKey then Json.str [] else Json.str s) :: maskObj rest
  | (k, v) :: rest => (k, maskHints v) :: maskObj rest

end

mutual

def noSeqInSeq : Json → Bool
  | Json.arr xs => nssList xs
  | Json.obj kvs => nssObj kvs
  | _ => true

def nssList : List Json → Bool
  | [] => true
  | Json.arr _ :: _ => false
  | x :: rest => noSeqInSeq x && nssList rest

def nssObj : List (List Char × Json) → Bool
  | [] => true
  | (_, v) :: rest => noSeqInSeq v && nssObj rest

end




/-! ### Lemmas about the matcher -/

theorem startsWith_append (p u : List Char) : startsWith p (p ++ u) = true := by
  induction p with
  | nil => rfl
  | cons a pa ih => simp [startsWith, ih]

theorem drop_length_append (p u : List Char) : (p ++ u).drop p.length = u := by
  simp

theorem takeWhile_ws (w : List Char) (u : List Char)
    (hw : ∀ ch ∈ w, pyIsSpace ch = true) :
    (w ++ '"' :: u).takeWhile pyIsSpace = w
      ∧ (w ++ '"' :: u).dropWhile pyIsSpace = '"' :: u := by
  induction w with
  | nil => constructor <;> simp [List.takeWhile, List.dropWhile, pyIsSpace]
  | cons a wa ih =>
      have ha : pyIsSpace a = true := hw a (by simp)
      have ih2 := ih (fun ch hch => hw ch (by simp [hch]))
      constructor <;> simp [List.takeWhile, List.dropWhile, ha, ih2.1, ih2.2]

theorem mem_takeWhile_ws (line : List Char) :
    ∀ ch ∈ line.takeWhile pyIsSpace, pyIsSpace ch = true := by
  intro ch hch
  exact List.mem_takeWhile_imp hch

theorem revStripNl_of_not_nl (t : List Char) (h : '\n' ∉ t) :
    revStripNl t = t.reverse := by
  unfold revStripNl
  cases hr : t.reverse with
  | nil => rfl
  | cons a r =>
      have ha : a ∈ t := by
        have : a ∈ t.reverse := by rw [hr]; simp
        simpa using this
      have : a ≠ '\n' := fun he => h (he ▸ ha)
      simp [this]

theorem greedyTail_quote (m : List Char) (hm : '\n' ∉ m) :
    greedyTail (m ++ ['"']) = some (m, []) := by
  have hstrip : revStripNl (m ++ ['"']) = '"' :: m.reverse := by
    unfold revStripNl
    rw [show (m ++ ['"']).reverse = '"' :: m.reverse by simp]
    simp
  unfold greedyTail
  rw [hstrip]
  simp [greedyTailRev, greedyCommaRev, hm]

theorem greedyTail_quote_comma (m : List Char) (hm : '\n' ∉ m) :
    greedyTail (m ++ ['"', ',']) = some (m, [',']) := by
  have hstrip : revStripNl (m ++ ['"', ',']) = ',' :: '"' :: m.reverse := by
    unfold revStripNl
    rw [show (m ++ ['"', ',']).reverse = ',' :: '"' :: m.reverse by simp]
    simp
  unfold greedyTail
  rw [hstrip]
  simp [greedyTailRev, greedyCommaRev, hm]

/-- Constructing a successful match: a line made of whitespace, the key
pattern, a newline-free content and a closing quote with optional comma is
matched with exactly these groups. -/
theorem matchKV_build (key w m s : List Char)
    (hw : ∀ ch ∈ w, pyIsSpace ch = true) (hm : '\n' ∉ m)
    (hs : s = [] ∨ s = [',']) :
    matchKV key (w ++ keyPattern key ++ m ++ '"' :: s) = some (w, m, s) := by
  have hline : w ++ keyPattern key ++ m ++ '"' :: s
      = w ++ '"' :: (key ++ ['"', ':', ' ', '"'] ++ (m ++ '"' :: s)) := by
    simp [keyPattern]
  have htake := takeWhile_ws w (key ++ ['"', ':', ' ', '"'] ++ (m ++ '"' :: s)) hw
  have hdropWhile : (w ++ keyPattern key ++ m ++ '"' :: s).dropWhile pyIsSpace
      = keyPattern key ++ (m ++ '"' :: s) := by
    rw [hline, htake.2]; simp [keyPattern]
  have htakeWhile : (w ++ keyPattern key ++ m ++ '"' :: s).takeWhile pyIsSpace = w := by
    rw [hline, htake.1]
  unfold matchKV
  rw [hdropWhile, htakeWhile, startsWith_append, drop_length_append]
  rcases hs with hs | hs
  · subst hs
    rw [show m ++ '"' :: ([] : List Char) = m ++ ['"'] by simp]
    simp [greedyTail_quote m hm]
  · subst hs
    rw [show m ++ '"' :: [','] = m ++ ['"', ','] by simp]
    simp [greedyTail_quote_comma m hm]

/-- Inversion of the reversed-tail matcher: the scrutinised list is the
reverse of `content ++ closing quote ++ suffix`, the content has no
newline, and the suffix group is empty or a single comma. -/
theorem greedyTailRev_inv (a : Char) (r c s : List Char)
    (h : greedyTailRev (a :: r) = some (c, s)) :
    a :: r = s.reverse ++ '"' :: c.reverse ∧ '\n' ∉ c ∧ (s = [] ∨ s = [',']) := by
  rw [show greedyTailRev (a :: r)
      = (if '\n' ∈ a :: r then none
         else if a = '"' then some (r.reverse, ([] : List Char))
         else if a = ',' then greedyCommaRev r
         else none) from rfl] at h
  by_cases hnl : '\n' ∈ a :: r
  · simp [hnl] at h
  · rw [if_neg hnl] at h
    have hnr : '\n' ∉ r := fun hm2 => hnl (by simp [hm2])
    by_cases ha : a = '"'
    · simp [ha] at h
      obtain ⟨hc, hs⟩ := h
      subst hc hs
      refine ⟨by simp [ha], fun hcc => hnr (by simpa using hcc), Or.inl rfl⟩
    · rw [if_neg ha] at h
      by_cases ha2 : a = ','
      · rw [if_pos ha2] at h
        cases r with
        | nil => simp [greedyCommaRev] at h
        | cons b r2 =>
            by_cases hb : b = '"'
            · simp [greedyCommaRev, hb] at h
              obtain ⟨hc, hs⟩ := h
              subst hc hs
              have hnr2 : '\n' ∉ r2 := fun hm2 => hnr (by simp [hm2])
              refine ⟨by simp [ha2, hb], fun hcc => hnr2 (by simpa using hcc),
                Or.inr rfl⟩
            · simp [greedyCommaRev, hb] at h
      · simp [ha2] at h

theorem greedyTail_inv (t c s : List Char) (h : greedyTail t = some (c, s)) :
    '\n' ∉ c ∧ (s = [] ∨ s = [',']) := by
  unfold greedyTail at h
  cases hr : revStripNl t with
  | nil => rw [hr] at h; simp [greedyTailRev] at h
  | cons a r =>
      rw [hr] at h
      exact (greedyTailRev_inv a r c s h).2

theorem greedyTail_reconstruct (t c s : List Char) (hnl : '\n' ∉ t)
    (h : greedyTail t = some (c, s)) : t = c ++ '"' :: s := by
  unfold greedyTail at h
  rw [revStripNl_of_not_nl t hnl] at h
  cases hr : t.reverse with
  | nil => rw [hr] at h; simp [greedyTailRev] at h
  | cons a r =>
      rw [hr] at h
      have h2 : t.reverse = s.reverse ++ '"' :: c.reverse :=
        hr.trans (greedyTailRev_inv a r c s h).1
      have h3 := congrArg List.reverse h2
      simpa using h3

/-- Inversion of a successful match: the indentation group is whitespace,
the content is newline-free and the final group is empty or a comma. -/
theorem matchKV_inv (key line w c s : List Char)
    (h : matchKV key line = some (w, c, s)) :
    (∀ ch ∈ w, pyIsSpace ch = true) ∧ '\n' ∉ c ∧ (s = [] ∨ s = [',']) := by
  unfold matchKV at h
  by_cases hsw : startsWith (keyPattern key) (line.dropWhile pyIsSpace) = true
  · rw [if_pos hsw] at h
    cases hg : greedyTail ((line.dropWhile pyIsSpace).drop (keyPattern key).length) with
    | none => rw [hg] at h; exact absurd h (by simp)
    | some cs =>
        rw [hg] at h
        obtain ⟨c0, s0⟩ := cs
        simp at h
        obtain ⟨hw, hc, hs⟩ := h
        subst hw hc hs
        have := greedyTail_inv _ _ _ hg
        exact ⟨mem_takeWhile_ws line, this.1, this.2⟩
  · rw [if_neg hsw] at h; exact absurd h (by simp)

/-- Reconstruction of a matched line (for newline-free lines, which is
what `process_file` feeds to `fix_line`): the line is exactly indentation,
key pattern, content, closing quote and suffix group. -/
theorem matchKV_reconstruct (key line w c s : List Char)
    (hnl : '\n' ∉ line) (h : matchKV key line = some (w, c, s)) :
    line = w ++ keyPattern key ++ c ++ '"' :: s := by
  unfold matchKV at h
  by_cases hsw : startsWith (keyPattern key) (line.dropWhile pyIsSpace) = true
  · rw [if_pos hsw] at h
    cases hg : greedyTail ((line.dropWhile pyIsSpace).drop (keyPattern key).length) with
    | none => rw [hg] at h; simp at h
    | some cs =>
        rw [hg] at h
        obtain ⟨c0, s0⟩ := cs
        simp at h
        obtain ⟨hw, hc, hs⟩ := h
        subst hw hc hs
        have hsplit := List.takeWhile_append_dropWhile (p := pyIsSpace) (l := line)
        have hpre : keyPattern key ++ (line.dropWhile pyIsSpace).drop (keyPattern key).length
            = line.dropWhile pyIsSpace := by
          revert hsw
          generalize line.dropWhile pyIsSpace = rest
          generalize keyPattern key = pat
          intro hsw
          induction pat generalizing rest with
          | nil => simp
          | cons a pa ih =>
              cases rest with
              | nil => simp [startsWith] at hsw
              | cons b rb =>
                  simp [startsWith] at hsw
                  simpa [hsw.1] using ih rb hsw.2
        have hnl2 : '\n' ∉ (line.dropWhile pyIsSpace).drop (keyPattern key).length := by
          intro hmem
          exact hnl (by
            have h1 : '\n' ∈ line.dropWhile pyIsSpace := by
              rw [← hpre]
              simp [hmem]
            have h2 := List.dropWhile_sublist (p := pyIsSpace) (l := line)
            exact h2.mem h1)
        have hrec := greedyTail_reconstruct _ _ _ hnl2 hg
        calc line = line.takeWhile pyIsSpace ++ line.dropWhile pyIsSpace := hsplit.symm
          _ = line.takeWhile pyIsSpace ++ (keyPattern key
                ++ (line.dropWhile pyIsSpace).drop (keyPattern key).length) := by
                rw [hpre]
          _ = line.takeWhile pyIsSpace ++ keyPattern key ++ c0 ++ '"' :: s0 := by
                rw [hrec]; simp
  · rw [if_neg hsw] at h; simp at h

/-- The `"f"` pattern never matches a line whose first non-whitespace
characters are the `"b"` key pattern. -/
theorem matchKV_f_on_b (w u : List Char) (hw : ∀ ch ∈ w, pyIsSpace ch = true) :
    matchKV fKey (w ++ keyPattern bKey ++ u) = none := by
  have hline : w ++ keyPattern bKey ++ u
      = w ++ '"' :: (bKey ++ ['"', ':', ' ', '"'] ++ u) := by simp [keyPattern]
  have htake := takeWhile_ws w (bKey ++ ['"', ':', ' ', '"'] ++ u) hw
  have hdropWhile : (w ++ keyPattern bKey ++ u).dropWhile pyIsSpace
      = '"' :: (bKey ++ ['"', ':', ' ', '"'] ++ u) := by
    rw [hline, htake.2]
  unfold matchKV
  rw [hdropWhile]
  simp [startsWith, keyPattern, fKey, bKey]

/-! ### Lemmas about the escaping scan -/

theorem escapeGo_eq_spec (l : List Char) : ∀ p : Option Char,
    escapeGo p l = ((p :: l.map some).zip l).flatMap fun pc => specEmit pc.1 pc.2 := by
  induction l with
  | nil => intro p; rfl
  | cons c rest ih =>
      intro p
      by_cases hc : c = '"'
      · subst hc
        by_cases hp : p = some '\\'
        · simp [escapeGo, hp, specEmit, ih (some '"')]
        · simp [escapeGo, hp, specEmit, ih (some '"')]
      · simp [escapeGo, hc, specEmit, ih (some c)]

/-- The scan's output satisfies the "every quote escaped" predicate. -/
theorem allEscaped_escapeGo (l : List Char) : ∀ p : Option Char,
    allEscaped p (escapeGo p l) = true := by
  induction l with
  | nil => intro p; rfl
  | cons c rest ih =>
      intro p
      by_cases hc : c = '"'
      · subst hc
        by_cases hp : p = some '\\'
        · simp [escapeGo, hp, allEscaped, ih (some '"')]
        · simp [escapeGo, hp, allEscaped, ih (some '"')]
      · simp [escapeGo, hc, allEscaped, ih (some c)]

/-- On content whose quotes are all already escaped the scan is the
identity. -/
theorem escapeGo_of_allEscaped (l : List Char) : ∀ p : Option Char,
    allEscaped p l = true → escapeGo p l = l := by
  induction l with
  | nil => intro p _; rfl
  | cons c rest ih =>
      intro p hok
      simp [allEscaped] at hok
      by_cases hc : c = '"'
      · subst hc
        have hp : p = some '\\' := by
          rcases hok.1 with h | h
          · exact absurd rfl h
          · exact h
        simp [escapeGo, hp, ih (some '"') hok.2]
      · simp [escapeGo, hc, ih (some c) hok.2]

theorem escapeGo_idem (l : List Char) (p : Option Char) :
    escapeGo p (escapeGo p l) = escapeGo p l :=
  escapeGo_of_allEscaped _ _ (allEscaped_escapeGo l p)

theorem mem_escapeGo (l : List Char) : ∀ (p : Option Char) (a : Char),
    a ∈ escapeGo p l → a ∈ l ∨ a = '\\' := by
  induction l with
  | nil => intro p a h; simp [escapeGo] at h
  | cons c rest ih =>
      intro p a h
      by_cases hc : c = '"'
      · by_cases hp : p = some '\\'
        · rw [escapeGo, if_pos hc, if_pos hp] at h
          rcases List.mem_cons.mp h with h | h
          · exact Or.inl (by simp [h])
          · rcases ih (some c) a h with h | h
            · exact Or.inl (by simp [h])
            · exact Or.inr h
        · rw [escapeGo, if_pos hc, if_neg hp] at h
          rcases List.mem_cons.mp h with h | h
          · exact Or.inr h
          · rcases List.mem_cons.mp h with h | h
            · exact Or.inl (by simp [h])
            · rcases ih (some c) a h with h | h
              · exact Or.inl (by simp [h])
              · exact Or.inr h
      · rw [escapeGo, if_neg hc] at h
        rcases List.mem_cons.mp h with h | h
        · exact Or.inl (by simp [h])
        · rcases ih (some c) a h with h | h
          · exact Or.inl (by simp [h])
          · exact Or.inr h

theorem not_nl_escapeContent (c : List Char) (hc : '\n' ∉ c) :
    '\n' ∉ escapeContent c := by
  intro h
  rcases mem_escapeGo c none '\n' h with h | h
  · exact hc h
  · exact absurd h (by decide)

/-! ### Lemmas about `fix_line` as a whole -/

theorem fix_line_of_matchLine (line k w c s : List Char)
    (h : matchLine line = some (k, w, c, s)) :
    fix_line line = w ++ keyPattern k ++ escapeContent c ++ '"' :: s := by
  unfold matchLine at h
  cases hf : matchKV fKey line with
  | some g =>
      obtain ⟨w0, c0, s0⟩ := g
      rw [hf] at h
      simp at h
      obtain ⟨hk, hw, hc, hs⟩ := h
      subst hk hw hc hs
      simp [fix_line, hf]
  | none =>
      rw [hf] at h
      cases hb : matchKV bKey line with
      | some g =>
          obtain ⟨w0, c0, s0⟩ := g
          rw [hb] at h
          simp at h
          obtain ⟨hk, hw, hc, hs⟩ := h
          subst hk hw hc hs
          simp [fix_line, hf, hb]
      | none => rw [hb] at h; simp at h

theorem matchLine_to_matchKV (line k w c s : List Char)
    (h : matchLine line = some (k, w, c, s)) :
    matchKV k line = some (w, c, s) ∧ (k = fKey ∨ k = bKey) := by
  unfold matchLine at h
  cases hf : matchKV fKey line with
  | some g =>
      obtain ⟨w0, c0, s0⟩ := g
      rw [hf] at h
      simp at h
      obtain ⟨hk, hw, hc, hs⟩ := h
      subst hk hw hc hs
      exact ⟨hf, Or.inl rfl⟩
  | none =>
      rw [hf] at h
      cases hb : matchKV bKey line with
      | some g =>
          obtain ⟨w0, c0, s0⟩ := g
          rw [hb] at h
          simp at h
          obtain ⟨hk, hw, hc, hs⟩ := h
          subst hk hw hc hs
          exact ⟨hb, Or.inr rfl⟩
      | none => rw [hb] at h; simp at h

/-- `fix_line` is idempotent on every line. -/
theorem fix_line_idem (line : List Char) :
    fix_line (fix_line line) = fix_line line := by
  cases hf : matchKV fKey line with
  | some g =>
      obtain ⟨w, c, s⟩ := g
      obtain ⟨hw, hc, hs⟩ := matchKV_inv fKey line w c s hf
      have hout : fix_line line = w ++ keyPattern fKey ++ escapeContent c ++ '"' :: s := by
        simp [fix_line, hf]
      have hmatch := matchKV_build fKey w (escapeContent c) s hw
        (not_nl_escapeContent c hc) hs
      rw [hout]
      unfold fix_line
      rw [hmatch]
      simp [escapeContent, escapeGo_idem]
  | none =>
      cases hb : matchKV bKey line with
      | some g =>
          obtain ⟨w, c, s⟩ := g
          obtain ⟨hw, hc, hs⟩ := matchKV_inv bKey line w c s hb
          have hout : fix_line line = w ++ keyPattern bKey ++ escapeContent c ++ '"' :: s := by
            simp [fix_line, hf, hb]
          have hnone := matchKV_f_on_b w (escapeContent c ++ '"' :: s) hw
          have hmatch := matchKV_build bKey w (escapeContent c) s hw
            (not_nl_escapeContent c hc) hs
          rw [hout]
          have hassoc : w ++ keyPattern bKey ++ escapeContent c ++ '"' :: s
              = w ++ keyPattern bKey ++ (escapeContent c ++ '"' :: s) := by simp
          have hnone2 : matchKV fKey (w ++ keyPattern bKey ++ escapeContent c
              ++ '"' :: s) = none := by rw [hassoc]; exact hnone
          unfold fix_line
          rw [hnone2, hmatch]
          simp [escapeContent, escapeGo_idem]
      | none => simp [fix_line, hf, hb]


/-! ### Lemmas about `clean_hints` -/

/-- The entry treatment of the list branch and the dict branch coincide. -/
theorem cleanInListObj_eq (kvs : List (List Char × Json)) :
    cleanInListObj kvs = cleanObjEntries kvs := by
  induction kvs with
  | nil => simp [cleanInListObj, cleanObjEntries]
  | cons e rest ih =>
      obtain ⟨k, v⟩ := e
      cases v <;> simp [cleanInListObj, cleanObjEntries, ih]

theorem removeTicks_idem (s : List Char) :
    removeTicks (removeTicks s) = removeTicks s := by
  unfold removeTicks
  rw [List.filter_filter]
  simp

mutual

theorem clean_hints_idem : (j : Json) → clean_hints (clean_hints j) = clean_hints j
  | Json.null => by simp [clean_hints]
  | Json.bool b => by simp [clean_hints]
  | Json.num n => by simp [clean_hints]
  | Json.str s => by simp [clean_hints]
  | Json.arr xs => by simp [clean_hints, cleanListItems_idem xs]
  | Json.obj kvs => by simp [clean_hints, cleanObjEntries_idem kvs]

theorem cleanListItems_idem :
    (xs : List Json) → cleanListItems (cleanListItems xs) = cleanListItems xs
  | [] => by simp [cleanListItems]
  | Json.obj kvs :: rest => by
      simp [cleanListItems, cleanInListObj_idem kvs, cleanListItems_idem rest]
  | Json.null :: rest => by simp [cleanListItems, cleanListItems_idem rest]
  | Json.bool b :: rest => by simp [cleanListItems, cleanListItems_idem rest]
  | Json.num n :: rest => by simp [cleanListItems, cleanListItems_idem rest]
  | Json.str s :: rest => by simp [cleanListItems, cleanListItems_idem rest]
  | Json.arr ys :: rest => by simp [cleanListItems, cleanListItems_idem rest]

theorem cleanInListObj_idem :
    (kvs : List (List Char × Json)) → cleanInListObj (cleanInListObj kvs) = cleanInListObj kvs
  | [] => by simp [cleanInListObj]
  | (k, Json.str s) :: rest => by
      by_cases hk : k = hintKey
      · simp [cleanInListObj, hk, removeTicks_idem, cleanInListObj_idem rest]
      · simp [cleanInListObj, hk, cleanInListObj_idem rest]
  | (k, Json.null) :: rest => by
      simp [cleanInListObj, clean_hints, cleanInListObj_idem rest]
  | (k, Json.bool b) :: rest => by
      simp [cleanInListObj, clean_hints, cleanInListObj_idem rest]
  | (k, Json.num n) :: rest => by
      simp [cleanInListObj, clean_hints, cleanInListObj_idem rest]
  | (k, Json.arr ys) :: rest => by
      simp [cleanInListObj, clean_hints, cleanListItems_idem ys, cleanInListObj_idem rest]
  | (k, Json.obj kvs2) :: rest => by
      simp [cleanInListObj, clean_hints, cleanObjEntries_idem kvs2, cleanInListObj_idem rest]

theorem cleanObjEntries_idem :
    (kvs : List (List Char × Json)) → cleanObjEntries (cleanObjEntries kvs) = cleanObjEntries kvs
  | [] => by simp [cleanObjEntries]
  | (k, Json.str s) :: rest => by
      by_cases hk : k = hintKey
      · simp [cleanObjEntries, hk, removeTicks_idem, cleanObjEntries_idem rest]
      · simp [cleanObjEntries, hk, cleanObjEntries_idem rest]
  | (k, Json.null) :: rest => by
      simp [cleanObjEntries, clean_hints, cleanObjEntries_idem rest]
  | (k, Json.bool b) :: rest => by
      simp [cleanObjEntries, clean_hints, cleanObjEntries_idem rest]
  | (k, Json.num n) :: rest => by
      simp [cleanObjEntries, clean_hints, cleanObjEntries_idem rest]
  | (k, Json.arr ys) :: rest => by
      simp [cleanObjEntries, clean_hints, cleanListItems_idem ys, cleanObjEntries_idem rest]
  | (k, Json.obj kvs2) :: rest => by
      simp [cleanObjEntries, clean_hints, cleanObjEntries_idem kvs2, cleanObjEntries_idem rest]

end

mutual

/-- Frame property: cleaning does not change anything outside string
`"hint"` values (both sides have the same mask). -/
theorem maskClean : (j : Json) → maskHints (clean_hints j) = maskHints j
  | Json.null => by simp [clean_hints]
  | Json.bool b => by simp [clean_hints]
  | Json.num n => by simp [clean_hints]
  | Json.str s => by simp [clean_hints]
  | Json.arr xs => by simp [clean_hints, maskHints, maskCleanList xs]
  | Json.obj kvs => by simp [clean_hints, maskHints, maskCleanObj kvs]

theorem maskCleanList : (xs : List Json) → maskList (cleanListItems xs) = maskList xs
  | [] => by simp [cleanListItems]
  | Json.obj kvs :: rest => by
      simp [cleanListItems, maskList, maskHints, maskCleanObjL kvs, maskCleanList rest]
  | Json.null :: rest => by simp [cleanListItems, maskList, maskCleanList rest]
  | Json.bool b :: rest => by simp [cleanListItems, maskList, maskCleanList rest]
  | Json.num n :: rest => by simp [cleanListItems, maskList, maskCleanList rest]
  | Json.str s :: rest => by simp [cleanListItems, maskList, maskCleanList rest]
  | Json.arr ys :: rest => by simp [cleanListItems, maskList, maskCleanList rest]

theorem maskCleanObjL :
    (kvs : List (List Char × Json)) → maskObj (cleanInListObj kvs) = maskObj kvs
  | [] => by simp [cleanInListObj]
  | (k, Json.str s) :: rest => by
      by_cases hk : k = hintKey
      · simp [cleanInListObj, maskObj, hk, maskCleanObjL rest]
      · simp [cleanInListObj, maskObj, hk, maskCleanObjL rest]
  | (k, Json.null) :: rest => by
      simp [cleanInListObj, clean_hints, maskObj, maskCleanObjL rest]
  | (k, Json.bool b) :: rest => by
      simp [cleanInListObj, clean_hints, maskObj, maskCleanObjL rest]
  | (k, Json.num n) :: rest => by
      simp [cleanInListObj, clean_hints, maskObj, maskCleanObjL rest]
  | (k, Json.arr ys) :: rest => by
      simp [cleanInListObj, clean_hints, maskObj, maskHints, maskCleanList ys,
        maskCleanObjL rest]
  | (k, Json.obj kvs2) :: rest => by
      simp [cleanInListObj, clean_hints, maskObj, maskHints, maskCleanObj kvs2,
        maskCleanObjL rest]

theorem maskCleanObj :
    (kvs : List (List Char × Json)) → maskObj (cleanObjEntries kvs) = maskObj kvs
  | [] => by simp [cleanObjEntries]
  | (k, Json.str s) :: rest => by
      by_cases hk : k = hintKey
      · simp [cleanObjEntries, maskObj, hk, maskCleanObj rest]
      · simp [cleanObjEntries, maskObj, hk, maskCleanObj rest]
  | (k, Json.null) :: rest => by
      simp [cleanObjEntries, clean_hints, maskObj, maskCleanObj rest]
  | (k, Json.bool b) :: rest => by
      simp [cleanObjEntries, clean_hints, maskObj, maskCleanObj rest]
  | (k, Json.num n) :: rest => by
      simp [cleanObjEntries, clean_hints, maskObj, maskCleanObj rest]
  | (k, Json.arr ys) :: rest => by
      simp [cleanObjEntries, clean_hints, maskObj, maskHints, maskCleanList ys,
        maskCleanObj rest]
  | (k, Json.obj kvs2) :: rest => by
      simp [cleanObjEntries, clean_hints, maskObj, maskHints, maskCleanObj kvs2,
        maskCleanObj rest]

end

mutual

/-- On documents where no sequence element is itself a sequence, the
cleaner agrees with the full traversal described by the spec. -/
theorem cleanFull : (j : Json) → noSeqInSeq j = true → clean_hints j = cleanHintsFull j
  | Json.null, _ => by simp [clean_hints, cleanHintsFull]
  | Json.bool b, _ => by simp [clean_hints, cleanHintsFull]
  | Json.num n, _ => by simp [clean_hints, cleanHintsFull]
  | Json.str s, _ => by simp [clean_hints, cleanHintsFull]
  | Json.arr xs, h => by
      rw [show noSeqInSeq (Json.arr xs) = nssList xs from rfl] at h
      simp [clean_hints, cleanHintsFull, cleanFullList xs h]
  | Json.obj kvs, h => by
      rw [show noSeqInSeq (Json.obj kvs) = nssObj kvs from rfl] at h
      simp [clean_hints, cleanHintsFull, cleanFullObj kvs h]

theorem cleanFullList : (xs : List Json) → nssList xs = true → cleanListItems xs = fullList xs
  | [], _ => by simp [cleanListItems, fullList]
  | Json.obj kvs :: rest, h => by
      rw [show nssList (Json.obj kvs :: rest)
          = (nssObj kvs && nssList rest) from by simp [nssList, noSeqInSeq]] at h
      simp at h
      simp [cleanListItems, fullList, cleanHintsFull, cleanInListObj_eq,
        cleanFullObj kvs h.1, cleanFullList rest h.2]
  | Json.null :: rest, h => by
      rw [show nssList (Json.null :: rest)
          = (noSeqInSeq Json.null && nssList rest) from rfl] at h
      simp [noSeqInSeq] at h
      simp [cleanListItems, fullList, cleanHintsFull, cleanFullList rest h]
  | Json.bool b :: rest, h => by
      rw [show nssList (Json.bool b :: rest)
          = (noSeqInSeq (Json.bool b) && nssList rest) from rfl] at h
      simp [noSeqInSeq] at h
      simp [cleanListItems, fullList, cleanHintsFull, cleanFullList rest h]
  | Json.num n :: rest, h => by
      rw [show nssList (Json.num n :: rest)
          = (noSeqInSeq (Json.num n) && nssList rest) from rfl] at h
      simp [noSeqInSeq] at h
      simp [cleanListItems, fullList, cleanHintsFull, cleanFullList rest h]
  | Json.str s :: rest, h => by
      rw [show nssList (Json.str s :: rest)
          = (noSeqInSeq (Json.str s) && nssList rest) from rfl] at h
      simp [noSeqInSeq] at h
      simp [cleanListItems, fullList, cleanHintsFull, cleanFullList rest h]
  | Json.arr ys :: rest, h => by
      rw [show nssList (Json.arr ys :: rest) = false from rfl] at h
      exact absurd h (by simp)

theorem cleanFullObj :
    (kvs : List (List Char × Json)) → nssObj kvs = true → cleanObjEntries kvs = fullObj kvs
  | [], _ => by simp [cleanObjEntries, fullObj]
  | (k, Json.str s) :: rest, h => by
      rw [show nssObj ((k, Json.str s) :: rest)
          = (noSeqInSeq (Json.str s) && nssObj rest) from rfl] at h
      simp [noSeqInSeq] at h
      simp [cleanObjEntries, fullObj, cleanFullObj rest h]
  | (k, Json.null) :: rest, h => by
      rw [show nssObj ((k, Json.null) :: rest)
          = (noSeqInSeq Json.null && nssObj rest) from rfl] at h
      simp [noSeqInSeq] at h
      simp [cleanObjEntries, fullObj, clean_hints, cleanHintsFull, cleanFullObj rest h]
  | (k, Json.bool b) :: rest, h => by
      rw [show nssObj ((k, Json.bool b) :: rest)
          = (noSeqInSeq (Json.bool b) && nssObj rest) from rfl] at h
      simp [noSeqInSeq] at h
      simp [cleanObjEntries, fullObj, clean_hints, cleanHintsFull, cleanFullObj rest h]
  | (k, Json.num n) :: rest, h => by
      rw [show nssObj ((k, Json.num n) :: rest)
          = (noSeqInSeq (Json.num n) && nssObj rest) from rfl] at h
      simp [noSeqInSeq] at h
      simp [cleanObjEntries, fullObj, clean_hints, cleanHintsFull, cleanFullObj rest h]
  | (k, Json.arr ys) :: rest, h => by
      rw [show nssObj ((k, Json.arr ys) :: rest)
          = (noSeqInSeq (Json.arr ys) && nssObj rest) from rfl] at h
      rw [show noSeqInSeq (Json.arr ys) = nssList ys from rfl] at h
      simp at h
      simp [cleanObjEntries, fullObj, clean_hints, cleanHintsFull,
        cleanFullList ys h.1, cleanFullObj rest h.2]
  | (k, Json.obj kvs2) :: rest, h => by
      rw [show nssObj ((k, Json.obj kvs2) :: rest)
          = (noSeqInSeq (Json.obj kvs2) && nssObj rest) from rfl] at h
      rw [show noSeqInSeq (Json.obj kvs2) = nssObj kvs2 from rfl] at h
      simp at h
      simp [cleanObjEntries, fullObj, clean_hints, cleanHintsFull,
        cleanFullObj kvs2 h.1, cleanFullObj rest h.2]

end

/-! ### The claims -/

/-- Claim C1: for every line matching the designated key-value shape,
`fix_line` rewrites the content span by a left-to-right single-pass scan:
every quote whose immediately preceding character in the content (if any)
is a backslash is emitted unchanged, every other quote is replaced by a
backslash followed by a quote, and every non-quote character is emitted
unchanged (`escapeSpec` is that scan, transcribed from the words of the
spec). -/
theorem claim_C1 (line k w c s : List Char)
    (h : matchLine line = some (k, w, c, s)) :
    fix_line line = w ++ keyPattern k ++ escapeSpec c ++ '"' :: s := by
  rw [fix_line_of_matchLine line k w c s h]
  simp [escapeContent, escapeGo_eq_spec, escapeSpec]

theorem claim_C1_witness :
    fix_line ("  \"f\": \"He said \"hi\" to me\",".toList)
      = "  ".toList ++ keyPattern fKey ++ escapeSpec ("He said \"hi\" to me".toList)
          ++ '"' :: [','] :=
  claim_C1 ("  \"f\": \"He said \"hi\" to me\",".toList) fKey ("  ".toList)
    ("He said \"hi\" to me".toList) [','] (by decide)

/-- Claim C2: for every line made of optional whitespace, the quoted key
`"f"`, colon-space, a quoted content span and an optional trailing comma,
the matcher takes the content span to extend to the rightmost quote of
the line, treating all interior quotes as content; and on the concrete
input from the spec the whole line is rewritten with both embedded quotes
escaped, indentation and trailing comma preserved. -/
theorem claim_C2 :
    (∀ w m s : List Char, (∀ ch ∈ w, pyIsSpace ch = true) → '\n' ∉ m →
        (s = [] ∨ s = [',']) →
        matchKV fKey (w ++ keyPattern fKey ++ m ++ '"' :: s) = some (w, m, s))
    ∧ fix_line ("  \"f\": \"He said \"hi\" to me\",".toList)
        = "  \"f\": \"He said \\\"hi\\\" to me\",".toList :=
  ⟨fun w m s hw hm hs => matchKV_build fKey w m s hw hm hs, by decide⟩

theorem claim_C2_witness :
    matchKV fKey ("  ".toList ++ keyPattern fKey ++ "He said \"hi\" to me".toList
        ++ '"' :: [','])
      = some ("  ".toList, "He said \"hi\" to me".toList, [',']) :=
  claim_C2.1 ("  ".toList) ("He said \"hi\" to me".toList) [','] (by decide) (by decide)
    (Or.inr rfl)

/-- Claim C4: every line matching neither key pattern is returned
unchanged, byte for byte, and no error is signalled (the function is
total and falls through to the identity). -/
theorem claim_C4 (line : List Char) (h : matchLine line = none) :
    fix_line line = line := by
  unfold matchLine at h
  cases hf : matchKV fKey line with
  | some g => obtain ⟨w, c, s⟩ := g; rw [hf] at h; simp at h
  | none =>
      rw [hf] at h
      cases hb : matchKV bKey line with
      | some g => obtain ⟨w, c, s⟩ := g; rw [hb] at h; simp at h
      | none => simp [fix_line, hf, hb]

theorem claim_C4_witness : fix_line ("\"x\": \"y\"".toList) = "\"x\": \"y\"".toList :=
  claim_C4 ("\"x\": \"y\"".toList) (by decide)

/-- Claim C5: a matching (newline-free) line whose content span contains
only already-escaped quotes is returned unchanged, and applying
`fix_line` twice to any line gives the same result as applying it once. -/
theorem claim_C5 :
    (∀ line k w c s : List Char, '\n' ∉ line → matchLine line = some (k, w, c, s) →
        allEscaped none c = true → fix_line line = line)
    ∧ (∀ line : List Char, fix_line (fix_line line) = fix_line line) := by
  constructor
  · intro line k w c s hnl h hesc
    obtain ⟨hkv, _⟩ := matchLine_to_matchKV line k w c s h
    have hrec := matchKV_reconstruct k line w c s hnl hkv
    rw [fix_line_of_matchLine line k w c s h, escapeContent,
      escapeGo_of_allEscaped c none hesc, ← hrec]
  · exact fix_line_idem

theorem claim_C5_witness :
    fix_line ("  \"f\": \"already \\\"escaped\\\" text\",".toList)
      = "  \"f\": \"already \\\"escaped\\\" text\",".toList :=
  claim_C5.1 ("  \"f\": \"already \\\"escaped\\\" text\",".toList) fKey ("  ".toList)
    ("already \\\"escaped\\\" text".toList) [','] (by decide) (by decide) (by decide)

/-- Claim C7: when the full parse of the repaired, rejoined text fails,
`process_file` reports the line and column of the first parse error,
persists the partially repaired text to the side file
`debug_intermediate.json`, and completes normally (the event list below
is its entire behaviour; no exception escapes). -/
theorem claim_C7 (lines : List (List Char)) (loads : List Char → ParseOutcome)
    (dumps : Json → List Char) (msg : String) (lineno colno : Nat)
    (h : loads (List.intercalate ['\n'] (lines.map fun l => fix_line (rstripNl l)))
        = ParseOutcome.error msg lineno colno) :
    process_file (some lines) loads dumps
      = [Event.printed ("Reading raw_questions.json..."),
         Event.printed ("Cleaning pass finished, but result is still invalid."),
         Event.printedError msg,
         Event.printedErrorAt lineno colno,
         Event.wroteFile ("debug_intermediate.json")
           (List.intercalate ['\n'] (lines.map fun l => fix_line (rstripNl l)))] := by
  simp [process_file, h]

theorem claim_C7_witness :
    process_file (some ["\"f\": \"a\"".toList])
      (fun _ => ParseOutcome.error ("Expecting value") 1 2) (fun _ => [])
      = [Event.printed ("Reading raw_questions.json..."),
         Event.printed ("Cleaning pass finished, but result is still invalid."),
         Event.printedError ("Expecting value"),
         Event.printedErrorAt 1 2,
         Event.wroteFile ("debug_intermediate.json")
           (List.intercalate ['\n'] (["\"f\": \"a\"".toList].map
             fun l => fix_line (rstripNl l)))] :=
  claim_C7 ["\"f\": \"a\"".toList] (fun _ => ParseOutcome.error ("Expecting value") 1 2)
    (fun _ => []) ("Expecting value") 1 2 rfl

/-- Claim C8: the two designated keys are treated identically: for every
whitespace prefix, content and optional trailing comma, the `"f"` line
and the `"b"` line are rewritten to the same output up to the key name,
with the whitespace and the suffix preserved verbatim. -/
theorem claim_C8 (w c s : List Char) (hw : ∀ ch ∈ w, pyIsSpace ch = true)
    (hc : '\n' ∉ c) (hs : s = [] ∨ s = [',']) :
    fix_line (w ++ keyPattern fKey ++ c ++ '"' :: s)
        = w ++ keyPattern fKey ++ escapeContent c ++ '"' :: s
    ∧ fix_line (w ++ keyPattern bKey ++ c ++ '"' :: s)
        = w ++ keyPattern bKey ++ escapeContent c ++ '"' :: s := by
  constructor
  · have hf := matchKV_build fKey w c s hw hc hs
    unfold fix_line
    rw [hf]
  · have hb := matchKV_build bKey w c s hw hc hs
    have hassoc : w ++ keyPattern bKey ++ c ++ '"' :: s
        = w ++ keyPattern bKey ++ (c ++ '"' :: s) := by simp
    have hnone : matchKV fKey (w ++ keyPattern bKey ++ c ++ '"' :: s) = none := by
      rw [hassoc]; exact matchKV_f_on_b w (c ++ '"' :: s) hw
    unfold fix_line
    rw [hnone, hb]

theorem claim_C8_witness :
    (fix_line (" ".toList ++ keyPattern fKey ++ "a\"b".toList ++ '"' :: [','])
        = " ".toList ++ keyPattern fKey ++ escapeContent ("a\"b".toList) ++ '"' :: [','])
    ∧ fix_line (" ".toList ++ keyPattern bKey ++ "a\"b".toList ++ '"' :: [','])
        = " ".toList ++ keyPattern bKey ++ escapeContent ("a\"b".toList) ++ '"' :: [','] :=
  claim_C8 (" ".toList) ("a\"b".toList) [','] (by decide) (by decide) (Or.inr rfl)

/-- Claim C9: for every matching line, every quote occurring in the
rewritten content span of the output is immediately preceded by a
backslash (`allEscaped none` also rules out a leading unescaped quote). -/
theorem claim_C9 (line k w c s : List Char)
    (h : matchLine line = some (k, w, c, s)) :
    allEscaped none (escapeContent c) = true
    ∧ fix_line line = w ++ keyPattern k ++ escapeContent c ++ '"' :: s :=
  ⟨allEscaped_escapeGo c none, fix_line_of_matchLine line k w c s h⟩

theorem claim_C9_witness :
    allEscaped none (escapeContent ("say \"x\" now".toList)) = true
    ∧ fix_line ("  \"b\": \"say \"x\" now\"".toList)
      = "  ".toList ++ keyPattern bKey ++ escapeContent ("say \"x\" now".toList)
          ++ '"' :: [] :=
  claim_C9 ("  \"b\": \"say \"x\" now\"".toList) bKey ("  ".toList)
    ("say \"x\" now".toList) [] (by decide)

/-- Claim C3 is refuted by a mapping nested inside a sequence element
that is itself a sequence: the list branch of `clean_hints` only recurses
into items that are dicts, so the inner `"hint"` entry is left untouched
even though its string still contains a backtick. -/
theorem claim_C3_counterexample :
    clean_hints (Json.arr [Json.arr [Json.obj [(hintKey, Json.str [backtick])]]])
      = Json.arr [Json.arr [Json.obj [(hintKey, Json.str [backtick])]]]
    ∧ Json.str [backtick] ≠ Json.str (removeTicks [backtick]) := by
  constructor
  · simp [clean_hints, cleanListItems]
  · simp [removeTicks]

/-- Claim C3 (amended): `clean_hints` replaces every string `"hint"`
value as the full traversal `cleanHintsFull` does, provided no sequence
element of the document is itself a sequence; the traversal recurses into
all mapping values but, for sequence elements, only into the ones that
are mappings, so mappings below a sequence-inside-a-sequence are
missed. -/
theorem claim_C3 (j : Json) (h : noSeqInSeq j = true) :
    clean_hints j = cleanHintsFull j :=
  cleanFull j h

theorem claim_C3_witness :
    noSeqInSeq (Json.obj [(hintKey, Json.str [backtick])]) = true
    ∧ clean_hints (Json.obj [(hintKey, Json.str [backtick])])
        = cleanHintsFull (Json.obj [(hintKey, Json.str [backtick])]) :=
  ⟨rfl, claim_C3 (Json.obj [(hintKey, Json.str [backtick])]) rfl⟩

/-- Claim C6: `clean_hints` changes only string values stored under the
key `"hint"` (cleaning commutes with masking those values away), and on
the concrete document from the spec only the `"hint"` value loses its
backticks while the `"other"` value keeps its backtick. -/
theorem claim_C6 :
    (∀ j : Json, maskHints (clean_hints j) = maskHints j)
    ∧ clean_hints (Json.obj [(['a'],
        Json.arr [Json.obj [(hintKey, Json.str ("Use `x` carefully".toList))],
                  Json.obj [("other".toList, Json.str ("keep`this".toList))]])])
      = Json.obj [(['a'],
        Json.arr [Json.obj [(hintKey, Json.str ("Use x carefully".toList))],
                  Json.obj [("other".toList, Json.str ("keep`this".toList))]])] :=
  ⟨maskClean, by rfl⟩

/-- Claim C10: `clean_hints` is idempotent: a second application changes
nothing, since removing every backtick from a `"hint"` string leaves no
backtick behind and no other node is modified. -/
theorem claim_C10 (j : Json) : clean_hints (clean_hints j) = clean_hints j :=
  clean_hints_idem j
